import Mathlib

/-!
# NEC infrared transmitter (`Hardware/Base_Station/src/main.cpp`)

A shallow embedding of the ATtiny13A base-station firmware.  The firmware
drives an IR LED by switching pin PB1 between output (the 38 kHz carrier of
Timer0 reaches the LED) and input (LED off), and realises every interval of
the NEC protocol by a busy-wait `_delay_us`.

The hardware is modelled by the value of the direction register `DDRB`
together with the chronological list of the events the code performs:
carrier switched on, carrier switched off, and busy-wait delays.
-/

namespace TinyIR

/-! ## Hardware state -/

/-- One observable action of the firmware. -/
inductive Event where
  /-- Execution of the `IRon()` primitive. -/
  | on : Event
  /-- Execution of the `IRoff()` primitive. -/
  | off : Event
  /-- Execution of `_delay_us(us)`. -/
  | delay (us : Nat) : Event
  deriving DecidableEq, Repr

/-- Hardware state: the 8-bit direction register and the events so far
(oldest first). -/
structure Hw where
  DDRB : Nat
  trace : List Event
  deriving DecidableEq, Repr

/-- Conversion of a C `int` expression to `uint8_t`. -/
def toUInt8 (x : Int) : Nat := (x % 256).toNat

/-! ## Constants (`#define`) -/

/-- `#define TOP 31 // 1200kHz / 38kHz - 1 = 31`. -/
def TOP : Nat := 31

/-- `#define DUTY 7 // 1200kHz / 38kHz / 4 - 1 = 7`. -/
def DUTY : Nat := 7

/-! ## Carrier gate -/

/-- `DDRB |= 0b00000010` on the register value. -/
def IRonReg (d : Nat) : Nat := d ||| 0b00000010

/-- `DDRB &= 0b11111101` on the register value. -/
def IRoffReg (d : Nat) : Nat := d &&& 0b11111101

/-- `#define IRon() DDRB |= 0b00000010`: PB1 as output, IR at OC0B. -/
def IRon (s : Hw) : Hw :=
  { DDRB := IRonReg s.DDRB, trace := s.trace ++ [Event.on] }

/-- `#define IRoff() DDRB &= 0b11111101`: PB1 as input, LED off. -/
def IRoff (s : Hw) : Hw :=
  { DDRB := IRoffReg s.DDRB, trace := s.trace ++ [Event.off] }

/-- `_delay_us(us)`: busy-wait, the register is untouched. -/
def delay_us (us : Nat) (s : Hw) : Hw :=
  { s with trace := s.trace ++ [Event.delay us] }

/-- `_delay_ms(ms)`: busy-wait of `ms` milliseconds. -/
def delay_ms (ms : Nat) (s : Hw) : Hw :=
  delay_us (1000 * ms) s

/-! ## Pulse primitives -/

/-- `startPulse()`: `IRon(); _delay_us(9000); IRoff(); _delay_us(4500);`. -/
def startPulse (s : Hw) : Hw :=
  delay_us 4500 (IRoff (delay_us 9000 (IRon s)))

/-- `repeatPulse()`: `IRon(); _delay_us(9000); IRoff(); _delay_us(2250);`. -/
def repeatPulse (s : Hw) : Hw :=
  delay_us 2250 (IRoff (delay_us 9000 (IRon s)))

/-- `normalPulse()`: `IRon(); _delay_us(562); IRoff(); _delay_us(557);`. -/
def normalPulse (s : Hw) : Hw :=
  delay_us 557 (IRoff (delay_us 562 (IRon s)))

/-- `#define bit1Pause() _delay_us(1120)`. -/
def bit1Pause (s : Hw) : Hw :=
  delay_us 1120 s

/-- `repeatCode()`:
`_delay_ms(40); repeatPulse(); normalPulse(); _delay_ms(56);`. -/
def repeatCode (s : Hw) : Hw :=
  delay_ms 56 (normalPulse (repeatPulse (delay_ms 40 s)))

/-! ## Byte and telegram transmission -/

/-- The loop of `sendByte`:
`for (uint8_t i = 8; i; i--, value >>= 1) { normalPulse(); if (value & 1) bit1Pause(); }`
with `i` iterations left.  A right shift never leaves the 8-bit range, so
`value >>= 1` needs no truncation. -/
def sendByteLoop : Nat → Nat → Hw → Hw
  | 0, _, s => s
  | i + 1, value, s =>
    let s := normalPulse s
    let s := if value &&& 1 ≠ 0 then bit1Pause s else s
    sendByteLoop i (value >>> 1) s

/-- `void sendByte(uint8_t value)`; the argument is a C `int` expression that
the call converts to `uint8_t`. -/
def sendByte (value : Int) (s : Hw) : Hw :=
  sendByteLoop 8 (toUInt8 value) s

/-- `void sendCode(uint8_t cmd)`, with the build-time constant `ADDR` as a
parameter; the call converts the argument to `uint8_t`.  `#if ADDR > 0xFF`
selects the extended framing. -/
def sendCode (ADDR : Nat) (cmd : Nat) (s : Hw) : Hw :=
  let cmd : Nat := cmd % 256
  let s := startPulse s
  let s :=
    if ADDR > 0xFF then
      sendByte ((ADDR >>> 8 : Nat) : Int) (sendByte ((ADDR &&& 0xFF : Nat) : Int) s)
    else
      sendByte (~~~ (ADDR : Int)) (sendByte (ADDR : Int) s)
  let s := sendByte (~~~ (cmd : Int)) (sendByte (cmd : Int) s)
  normalPulse s

/-- Timer0 registers written by `main` before the main loop. -/
structure Timer0 where
  TCCR0A : Nat
  TCCR0B : Nat
  OCR0A : Nat
  OCR0B : Nat
  deriving DecidableEq, Repr

/-- The timer set-up of `main`:
`TCCR0A = 0b00100011; TCCR0B = 0b00001001; OCR0A = TOP; OCR0B = DUTY;`. -/
def timer0Setup : Timer0 :=
  { TCCR0A := 0b00100011, TCCR0B := 0b00001001, OCR0A := TOP, OCR0B := DUTY }

/-- `#define ADDR 0x04 // Address: LG TV`, the address the firmware is built
with. -/
def ADDR : Nat := 0x04

/-- One pass of the main loop: `sendCode(0x23); _delay_ms(500);`. -/
def mainLoopBody (s : Hw) : Hw :=
  delay_ms 500 (sendCode ADDR 0x23 s)

/-- The initial hardware state after reset: all pins inputs, nothing emitted. -/
def Hw.reset : Hw := { DDRB := 0, trace := [] }

/-! ## Reading a trace

The definitions below do not come from the firmware: they describe how a
trace is observed (which events one call appended, which carrier intervals
result) and what the NEC protocol expects to see. -/

/-- The events appended by running `f` from state `s`. -/
def emittedBy (f : Hw → Hw) (s : Hw) : List Event :=
  (f s).trace.drop s.trace.length

/-- Carrier intervals of an event list, as `(carrier on?, microseconds)`.
`carrier` is the carrier state and `acc` the length of the interval that is
open when the list starts; consecutive delays add up, a change of carrier
state closes the open interval, and the end of the list closes the last. -/
def intervalsFrom (carrier : Bool) (acc : Nat) : List Event → List (Bool × Nat)
  | [] => [(carrier, acc)]
  | Event.delay us :: es => intervalsFrom carrier (acc + us) es
  | Event.on :: es =>
    if carrier then intervalsFrom true acc es
    else (false, acc) :: intervalsFrom true 0 es
  | Event.off :: es =>
    if carrier then (true, acc) :: intervalsFrom false 0 es
    else intervalsFrom false acc es

/-- The mark/space intervals of an event list that starts with the carrier
off: the idle interval before the first mark is left out. -/
def markSpace (es : List Event) : List (Bool × Nat) :=
  (intervalsFrom false 0 es).tail

/-- The mark/space duration sequence a receiver measures. -/
def durations (es : List Event) : List Nat :=
  (markSpace es).map Prod.snd

/-- The number of carrier-on intervals of an event list. -/
def markCount (es : List Event) : Nat :=
  ((markSpace es).filter (fun iv => iv.1)).length

/-- The eight bits of a byte, least significant first. -/
def bitsLSB (v : Nat) : List Bool :=
  (List.range 8).map (fun i => v.testBit i)

/-- The events of one data bit: a 562 us burst, a 557 us pause, and for a
1 bit a further 1120 us of pause. -/
def bitEvents (b : Bool) : List Event :=
  [Event.on, Event.delay 562, Event.off, Event.delay 557] ++
    (if b then [Event.delay 1120] else [])

/-- The mark and the space of one data bit. -/
def bitIntervals (b : Bool) : List (Bool × Nat) :=
  [(true, 562), (false, if b then 557 + 1120 else 557)]

/-- The events of one byte, least significant bit first. -/
def byteEvents (v : Nat) : List Event :=
  (bitsLSB v).flatMap bitEvents

/-- The lead-in: 9000 us burst, 4500 us pause. -/
def leadInEvents : List Event :=
  [Event.on, Event.delay 9000, Event.off, Event.delay 4500]

/-- A telegram with the given data bytes whose last burst is followed by
the events `tail`. -/
def telegramEvents (bytes : List Nat) (tail : List Event) : List Event :=
  leadInEvents ++ bytes.flatMap byteEvents ++
    [Event.on, Event.delay 562, Event.off] ++ tail

/-- The bitwise complement of a byte within 8 bits. -/
def inv8 (v : Nat) : Nat := v ^^^ 0xFF

/-- The four data bytes of the standard framing. -/
def standardBytes (a c : Nat) : List Nat := [a, inv8 a, c, inv8 c]

/-- The four data bytes of the extended framing. -/
def extendedBytes (a c : Nat) : List Nat := [a &&& 0xFF, a >>> 8, c, inv8 c]

/-- The four bytes `sendCode` hands to `sendByte`, each as the `uint8_t` the
call receives. -/
def dataBytes (ADDR cmd : Nat) : List Nat :=
  if ADDR > 0xFF then
    [toUInt8 ((ADDR &&& 0xFF : Nat) : Int), toUInt8 ((ADDR >>> 8 : Nat) : Int),
      toUInt8 ((cmd % 256 : Nat) : Int), toUInt8 (~~~ ((cmd % 256 : Nat) : Int))]
  else
    [toUInt8 (ADDR : Int), toUInt8 (~~~ (ADDR : Int)),
      toUInt8 ((cmd % 256 : Nat) : Int), toUInt8 (~~~ ((cmd % 256 : Nat) : Int))]

/-- The NEC nominal length in microseconds of a data-bit interval: 562.5 us
for every mark and for the space of a 0, 1687.5 us for the space of a 1. -/
def necNominal (bit : Bool) (isMark : Bool) : ℚ :=
  if isMark then 562.5 else if bit then 1687.5 else 562.5

/-- A programmed length lies within 10% of a nominal length. -/
def withinTenPercent (us : Nat) (nominal : ℚ) : Prop :=
  |(us : ℚ) - nominal| ≤ nominal / 10

instance (us : Nat) (nominal : ℚ) : Decidable (withinTenPercent us nominal) :=
  inferInstanceAs (Decidable (|(us : ℚ) - nominal| ≤ nominal / 10))

/-- The value of a byte given by its bits, least significant first. -/
def byteOfBits : List Bool → Nat
  | [] => 0
  | b :: bs => (if b then 1 else 0) + 2 * byteOfBits bs

/-- Reference decoder, bit level: for each of the next `n` marks, the space
that follows it is a 0 if it is shorter than 1125 us (the midpoint of the
nominal 562.5 us and 1687.5 us) and a 1 otherwise. -/
def decodeBits : Nat → List Nat → Option (List Bool)
  | 0, _ => some []
  | n + 1, _ :: space :: rest =>
    (decodeBits n rest).map (fun bs => decide (1125 ≤ space) :: bs)
  | _ + 1, _ => none

/-- Reference NEC decoder for a receiver configured for standard
(`extended = false`) or extended addressing: skip the lead-in mark and space,
read 32 bits, assemble four bytes least significant bit first, check that
byte 4 is the complement of byte 3, and return (address, command).  The
standard address is byte 1, with byte 2 checked to be its complement; the
extended address is byte 1 (low) and byte 2 (high). -/
def necDecode (extended : Bool) (ds : List Nat) : Option (Nat × Nat) :=
  match decodeBits 32 (ds.drop 2) with
  | none => none
  | some bits =>
    let b1 := byteOfBits (bits.take 8)
    let b2 := byteOfBits ((bits.drop 8).take 8)
    let b3 := byteOfBits ((bits.drop 16).take 8)
    let b4 := byteOfBits ((bits.drop 24).take 8)
    if b4 = inv8 b3 then
      if extended then some (b1 + 256 * b2, b3)
      else if b2 = inv8 b1 then some (b1, b3) else none
    else none

/-- The sum in microseconds of all delays of an event list. -/
def totalDelay : List Event → Nat
  | [] => 0
  | Event.delay us :: es => us + totalDelay es
  | Event.on :: es => totalDelay es
  | Event.off :: es => totalDelay es

/-- The number of 1 bits among the low eight bits of a value. -/
def popcount8 (v : Nat) : Nat :=
  (bitsLSB v).count true

/-- Whether an event switches the carrier. -/
def isGate : Event → Bool
  | Event.on => true
  | Event.off => true
  | Event.delay _ => false

/-- The carrier state after an event list that starts in state `carrier`. -/
def carrierAfter (carrier : Bool) : List Event → Bool
  | [] => carrier
  | Event.on :: es => carrierAfter true es
  | Event.off :: es => carrierAfter false es
  | Event.delay _ :: es => carrierAfter carrier es

/-- The delays, in order, that an event list executes while the carrier state
is `want`; `carrier` is the carrier state when the list starts. -/
def delaysWhile (want : Bool) (carrier : Bool) : List Event → List Nat
  | [] => []
  | Event.on :: es => delaysWhile want true es
  | Event.off :: es => delaysWhile want false es
  | Event.delay us :: es =>
    if carrier = want then us :: delaysWhile want carrier es
    else delaysWhile want carrier es

/-! ## Timer0 as a carrier generator

The timer is hardware, not firmware.  It is modelled as the fast PWM mode
that `main` selects: clocked by the 1.2 MHz system clock without prescaler,
the counter runs from 0 up to `OCR0A` and starts again at 0, and the output
OC0B is high while the counter is at most `OCR0B`. -/

/-- The clock of the controller in Hz (`Clockspeed: 1.2 MHz internal`, the
`1200kHz` of the comments of `TOP` and `DUTY`). -/
def F_CPU : Nat := 1200000

/-- The counter value one clock tick after `count`. -/
def timerNext (t : Timer0) (count : Nat) : Nat :=
  if count < t.OCR0A then count + 1 else 0

/-- The counter value `n` clock ticks after a start at 0. -/
def timerCount (t : Timer0) : Nat → Nat
  | 0 => 0
  | n + 1 => timerNext t (timerCount t n)

/-- The level of OC0B at a counter value. -/
def pinHigh (t : Timer0) (count : Nat) : Bool :=
  decide (count ≤ t.OCR0B)

/-- The level of OC0B `n` clock ticks after a start at 0. -/
def carrierWave (t : Timer0) (n : Nat) : Bool :=
  pinHigh t (timerCount t n)

/-- The number of clock ticks of one carrier period. -/
def periodTicks (t : Timer0) : Nat :=
  t.OCR0A + 1

/-- The number of clock ticks of one period during which OC0B is high. -/
def highTicks (t : Timer0) : Nat :=
  ((List.range (periodTicks t)).filter (fun n => carrierWave t n)).length

/-- The carrier frequency in Hz. -/
def carrierHz (t : Timer0) : ℚ :=
  (F_CPU : ℚ) / (periodTicks t : ℚ)

/-- The duty cycle of the carrier. -/
def dutyCycle (t : Timer0) : ℚ :=
  (highTicks t : ℚ) / (periodTicks t : ℚ)

/-! ## Auxiliary lemmas: integer conversions -/

theorem toUInt8_natCast (n : Nat) (h : n < 256) : toUInt8 (n : Int) = n := by
  unfold toUInt8
  omega

set_option maxRecDepth 100000 in
theorem inv8_eq_sub (n : Nat) (h : n < 256) : inv8 n = 255 - n := by
  unfold inv8
  revert n
  decide

theorem toUInt8_not (n : Nat) (h : n < 256) : toUInt8 (~~~ (n : Int)) = inv8 n := by
  rw [inv8_eq_sub n h]
  have : ~~~ (n : Int) = -(n : Int) - 1 := by
    show Int.not (Int.ofNat n) = _
    simp only [Int.not, Int.negSucc_eq, Int.ofNat_eq_coe]
    omega
  rw [this]
  unfold toUInt8
  omega

theorem inv8_lt (n : Nat) (h : n < 256) : inv8 n < 256 := by
  rw [inv8_eq_sub n h]; omega

/-! ## Auxiliary lemmas: event traces -/

theorem normalPulse_trace (s : Hw) :
    (normalPulse s).trace =
      s.trace ++ [Event.on, Event.delay 562, Event.off, Event.delay 557] := by
  simp [normalPulse, delay_us, IRoff, IRon]

theorem startPulse_trace (s : Hw) :
    (startPulse s).trace = s.trace ++ leadInEvents := by
  simp [startPulse, delay_us, IRoff, IRon, leadInEvents]

theorem and_one_ne_zero_iff (v : Nat) : (v &&& 1 ≠ 0) ↔ v.testBit 0 = true := by
  rw [Nat.testBit_zero, Nat.and_one_is_mod]
  have := Nat.mod_two_eq_zero_or_one v
  simp only [decide_eq_true_eq]
  omega

theorem sendByteLoop_trace (i : Nat) : ∀ (v : Nat) (s : Hw),
    (sendByteLoop i v s).trace =
      s.trace ++ ((List.range i).map (fun k => v.testBit k)).flatMap bitEvents := by
  induction i with
  | zero => intro v s; simp [sendByteLoop]
  | succ i ih =>
    intro v s
    rw [sendByteLoop, List.range_succ_eq_map]
    simp only [ih, List.map_cons, List.map_map, List.flatMap_cons]
    have hshift : ((fun k => (v >>> 1).testBit k) : Nat → Bool) =
        (fun k => v.testBit k) ∘ Nat.succ := by
      funext k
      simp [Nat.testBit_shiftRight, Nat.succ_eq_add_one, Nat.add_comm]
    rw [hshift]
    by_cases hb : v.testBit 0 = true
    · have h1 : v &&& 1 ≠ 0 := (and_one_ne_zero_iff v).2 hb
      rw [if_pos h1, hb]
      simp [bit1Pause, delay_us, normalPulse_trace, bitEvents]
    · have h1 : ¬ (v &&& 1 ≠ 0) := fun h => hb ((and_one_ne_zero_iff v).1 h)
      simp only [Bool.not_eq_true] at hb
      rw [if_neg h1, hb]
      simp [normalPulse_trace, bitEvents]

theorem sendByte_trace (x : Int) (s : Hw) :
    (sendByte x s).trace = s.trace ++ byteEvents (toUInt8 x) := by
  simp [sendByte, sendByteLoop_trace, byteEvents, bitsLSB]

theorem sendCode_trace (a c : Nat) (s : Hw) :
    (sendCode a c s).trace =
      s.trace ++ telegramEvents (dataBytes a c) [Event.delay 557] := by
  by_cases h : a > 0xFF
  · simp only [sendCode, dataBytes, if_pos h, normalPulse_trace, sendByte_trace,
      startPulse_trace]
    simp [telegramEvents]
  · simp only [sendCode, dataBytes, if_neg h, normalPulse_trace, sendByte_trace,
      startPulse_trace]
    simp [telegramEvents]

theorem emittedBy_sendCode (a c : Nat) (s : Hw) :
    emittedBy (sendCode a c) s = telegramEvents (dataBytes a c) [Event.delay 557] := by
  simp [emittedBy, sendCode_trace]

theorem emittedBy_sendByte (x : Int) (s : Hw) :
    emittedBy (sendByte x) s = byteEvents (toUInt8 x) := by
  simp [emittedBy, sendByte_trace]

theorem dataBytes_standard (a c : Nat) (ha : a ≤ 0xFF) (hc : c ≤ 255) :
    dataBytes a c = standardBytes a c := by
  have ha1 : a < 256 := by omega
  have hc1 : c < 256 := by omega
  have hna : ¬ a > 0xFF := by omega
  simp only [dataBytes, if_neg hna, Nat.mod_eq_of_lt hc1, toUInt8_natCast c hc1,
    toUInt8_natCast a ha1, toUInt8_not a ha1, toUInt8_not c hc1, standardBytes]

theorem dataBytes_extended (a c : Nat) (ha : 0xFF < a) (ha16 : a ≤ 0xFFFF) (hc : c ≤ 255) :
    dataBytes a c = extendedBytes a c := by
  have hc1 : c < 256 := by omega
  have hlo : a &&& 0xFF < 256 := by
    have := @Nat.and_le_right a 0xFF
    omega
  have hhi : a >>> 8 < 256 := by
    rw [Nat.shiftRight_eq_div_pow]
    omega
  have hgt : a > 0xFF := ha
  simp only [dataBytes, if_pos hgt, Nat.mod_eq_of_lt hc1, toUInt8_natCast c hc1,
    toUInt8_natCast _ hlo, toUInt8_natCast _ hhi, toUInt8_not c hc1, extendedBytes]

theorem dataBytes_length (a c : Nat) : (dataBytes a c).length = 4 := by
  unfold dataBytes
  split <;> rfl

theorem dataBits_length (a c : Nat) : ((dataBytes a c).flatMap bitsLSB).length = 32 := by
  unfold dataBytes
  split <;> simp [bitsLSB]

/-! ## Auxiliary lemmas: the direction register -/

theorem IRoffReg_IRonReg (d : Nat) : IRoffReg (IRonReg d) = IRoffReg d := by
  unfold IRoffReg IRonReg
  rw [Nat.and_comm, Nat.and_or_distrib_left, Nat.and_comm]
  have h : (0b11111101 : Nat) &&& 0b00000010 = 0 := by decide
  rw [h, Nat.or_zero]

theorem IRoffReg_idem (d : Nat) : IRoffReg (IRoffReg d) = IRoffReg d := by
  unfold IRoffReg
  rw [Nat.and_assoc, Nat.and_self]

theorem normalPulse_DDRB (s : Hw) : (normalPulse s).DDRB = IRoffReg s.DDRB := by
  simp [normalPulse, delay_us, IRoff, IRon, IRoffReg_IRonReg]

theorem startPulse_DDRB (s : Hw) : (startPulse s).DDRB = IRoffReg s.DDRB := by
  simp [startPulse, delay_us, IRoff, IRon, IRoffReg_IRonReg]

theorem sendByteLoop_DDRB (i : Nat) : ∀ (v : Nat) (s : Hw),
    (sendByteLoop i v s).DDRB = if i = 0 then s.DDRB else IRoffReg s.DDRB := by
  induction i with
  | zero => intro v s; simp [sendByteLoop]
  | succ i ih =>
    intro v s
    rw [sendByteLoop]
    simp only [ih]
    by_cases h1 : v &&& 1 ≠ 0
    · rw [if_pos h1]
      by_cases hi : i = 0 <;>
        simp [hi, bit1Pause, delay_us, normalPulse_DDRB, IRoffReg_idem]
    · rw [if_neg h1]
      by_cases hi : i = 0 <;> simp [hi, normalPulse_DDRB, IRoffReg_idem]

theorem sendByte_DDRB (x : Int) (s : Hw) : (sendByte x s).DDRB = IRoffReg s.DDRB := by
  simp [sendByte, sendByteLoop_DDRB]

theorem sendCode_DDRB (a c : Nat) (s : Hw) :
    (sendCode a c s).DDRB = IRoffReg s.DDRB := by
  unfold sendCode
  by_cases h : a > 0xFF
  · simp [h, normalPulse_DDRB, sendByte_DDRB, startPulse_DDRB, IRoffReg_idem]
  · simp [h, normalPulse_DDRB, sendByte_DDRB, startPulse_DDRB, IRoffReg_idem]

/-! ## Auxiliary lemmas: carrier intervals -/

theorem intervalsFrom_bitEvents (b : Bool) (acc : Nat) (rest : List Event) :
    intervalsFrom false acc (bitEvents b ++ rest) =
      (false, acc) :: (true, 562) ::
        intervalsFrom false (if b then 557 + 1120 else 557) rest := by
  cases b <;> simp [bitEvents, intervalsFrom]

theorem intervalsFrom_bits_on (bits : List Bool) : ∀ (acc : Nat) (rest : List Event),
    intervalsFrom false acc (bits.flatMap bitEvents ++ Event.on :: rest) =
      (false, acc) :: (bits.flatMap bitIntervals ++ intervalsFrom true 0 rest) := by
  induction bits with
  | nil => intro acc rest; simp [intervalsFrom]
  | cons b bs ih =>
    intro acc rest
    rw [List.flatMap_cons, List.append_assoc, intervalsFrom_bitEvents, ih]
    simp [bitIntervals]

theorem intervalsFrom_bits (bits : List Bool) : ∀ (acc : Nat),
    intervalsFrom false acc (bits.flatMap bitEvents) =
      (false, acc) :: bits.flatMap bitIntervals := by
  induction bits with
  | nil => intro acc; simp [intervalsFrom]
  | cons b bs ih =>
    intro acc
    rw [List.flatMap_cons, intervalsFrom_bitEvents, ih]
    simp [bitIntervals]

theorem flatMap_byteEvents (bytes : List Nat) :
    bytes.flatMap byteEvents = (bytes.flatMap bitsLSB).flatMap bitEvents := by
  induction bytes with
  | nil => rfl
  | cons v vs ih => simp [List.flatMap_cons, List.flatMap_append, ih, byteEvents]

theorem markSpace_telegram (bytes : List Nat) :
    markSpace (telegramEvents bytes [Event.delay 557]) =
      (true, 9000) :: (false, 4500) ::
        ((bytes.flatMap bitsLSB).flatMap bitIntervals ++ [(true, 562), (false, 557)]) := by
  have h : telegramEvents bytes [Event.delay 557] =
      Event.on :: Event.delay 9000 :: Event.off :: Event.delay 4500 ::
        ((bytes.flatMap bitsLSB).flatMap bitEvents ++
          Event.on :: [Event.delay 562, Event.off, Event.delay 557]) := by
    simp [telegramEvents, leadInEvents, flatMap_byteEvents]
  rw [markSpace, h]
  simp only [intervalsFrom, Nat.zero_add, if_true, if_false, Bool.false_eq_true,
    List.tail_cons]
  rw [intervalsFrom_bits_on]
  simp [intervalsFrom]

theorem bitsLSB_length (v : Nat) : (bitsLSB v).length = 8 := by
  simp [bitsLSB]

set_option maxRecDepth 100000 in
theorem byteOfBits_bitsLSB (v : Nat) (h : v < 256) : byteOfBits (bitsLSB v) = v := by
  revert v
  decide

theorem decodeBits_bits (bits : List Bool) (rest : List Nat) :
    decodeBits bits.length
        ((bits.flatMap bitIntervals).map Prod.snd ++ rest) = some bits := by
  induction bits with
  | nil => simp [decodeBits]
  | cons b bs ih =>
    have h : ((b :: bs).flatMap bitIntervals).map Prod.snd ++ rest =
        562 :: (if b then 557 + 1120 else 557) ::
          ((bs.flatMap bitIntervals).map Prod.snd ++ rest) := by
      rw [List.flatMap_cons, List.map_append]
      rfl
    rw [h, List.length_cons, decodeBits, ih]
    cases b <;> simp

theorem inv8_testBit (v : Nat) (i : Nat) (hi : i < 8) :
    (inv8 v).testBit i = !v.testBit i := by
  unfold inv8
  rw [Nat.testBit_xor]
  have h : (0xFF : Nat).testBit i = true := by
    have h8 : i = 0 ∨ i = 1 ∨ i = 2 ∨ i = 3 ∨ i = 4 ∨ i = 5 ∨ i = 6 ∨ i = 7 := by omega
    rcases h8 with h | h | h | h | h | h | h | h <;> subst h <;> decide
  rw [h]
  cases v.testBit i <;> rfl

/-! ## The claims -/

/-- C1 (standard framing): for an 8-bit address `a` and a command `c` in
[0, 255], the events of one `sendCode` call are the lead-in, then the 32 data
bits of the four bytes `a`, `~a mod 256`, `c`, `~c mod 256` in this order,
each byte least significant bit first, then the trailer pulse; the measured
mark/space intervals between lead-in and trailer are those of exactly these
bits; the second and fourth byte are the truncated C complements `~a`, `~c`,
and each of their 8 bits is the negation of the bit of `a`, `c`. -/
theorem C1_standard_framing (a c : Nat) (s : Hw) (ha : a ≤ 0xFF) (hc : c ≤ 255) :
    emittedBy (sendCode a c) s =
        leadInEvents ++ [a, inv8 a, c, inv8 c].flatMap byteEvents ++
          [Event.on, Event.delay 562, Event.off, Event.delay 557]
      ∧ markSpace (emittedBy (sendCode a c) s) =
        (true, 9000) :: (false, 4500) ::
          ((bitsLSB a ++ bitsLSB (inv8 a) ++ bitsLSB c ++ bitsLSB (inv8 c)).flatMap
              bitIntervals ++ [(true, 562), (false, 557)])
      ∧ inv8 a = toUInt8 (~~~ (a : Int)) ∧ inv8 c = toUInt8 (~~~ (c : Int))
      ∧ (∀ i, i < 8 → (inv8 a).testBit i = !a.testBit i)
      ∧ (∀ i, i < 8 → (inv8 c).testBit i = !c.testBit i) := by
  have hb := dataBytes_standard a c ha hc
  refine ⟨?_, ?_, ?_, ?_, ?_, ?_⟩
  · rw [emittedBy_sendCode, hb]
    simp [telegramEvents, standardBytes]
  · rw [emittedBy_sendCode, hb, markSpace_telegram]
    simp [standardBytes]
  · exact (toUInt8_not a (by omega)).symm
  · exact (toUInt8_not c (by omega)).symm
  · exact fun i hi => inv8_testBit a i hi
  · exact fun i hi => inv8_testBit c i hi

/-- Witness for C1 at `a = 0x04`, `c = 0x23`: the data bytes are
0x04, 0xFB, 0x23, 0xDC. -/
theorem C1_standard_framing_witness :
    emittedBy (sendCode 0x04 0x23) Hw.reset =
      leadInEvents ++ [0x04, 0xFB, 0x23, 0xDC].flatMap byteEvents ++
        [Event.on, Event.delay 562, Event.off, Event.delay 557] :=
  (C1_standard_framing 0x04 0x23 Hw.reset (by decide) (by decide)).1

/-- C2 (extended framing and mode selection): for an address `a` in
[0, 0xFFFF] and a command `c` in [0, 255], `sendCode` emits the telegram of the
extended bytes `a & 0xFF`, `a >> 8`, `c`, `~c mod 256` when `a > 0xFF` and
the telegram of the standard bytes `a`, `~a mod 256`, `c`, `~c mod 256` when
`a ≤ 0xFF`; the mode depends on nothing but `a > 0xFF`. -/
theorem C2_extended_framing (a c : Nat) (s : Hw) (ha : a ≤ 0xFFFF) (hc : c ≤ 255) :
    (0xFF < a → emittedBy (sendCode a c) s =
        leadInEvents ++ [a &&& 0xFF, a >>> 8, c, inv8 c].flatMap byteEvents ++
          [Event.on, Event.delay 562, Event.off, Event.delay 557])
      ∧ (a ≤ 0xFF → emittedBy (sendCode a c) s =
        leadInEvents ++ [a, inv8 a, c, inv8 c].flatMap byteEvents ++
          [Event.on, Event.delay 562, Event.off, Event.delay 557]) := by
  constructor
  · intro h
    rw [emittedBy_sendCode, dataBytes_extended a c h ha hc]
    simp [telegramEvents, extendedBytes]
  · intro h
    rw [emittedBy_sendCode, dataBytes_standard a c h hc]
    simp [telegramEvents, standardBytes]

/-- Witness for C2 at the boundary: `a = 0x0100` is sent in extended framing
with address bytes 0x00 then 0x01, and `a = 0x00FF` in standard framing with
address byte 0xFF and inverse byte 0x00 (command 0x23, inverse 0xDC). -/
theorem C2_extended_framing_witness :
    emittedBy (sendCode 0x0100 0x23) Hw.reset =
        leadInEvents ++ [0x00, 0x01, 0x23, 0xDC].flatMap byteEvents ++
          [Event.on, Event.delay 562, Event.off, Event.delay 557]
      ∧ emittedBy (sendCode 0x00FF 0x23) Hw.reset =
        leadInEvents ++ [0xFF, 0x00, 0x23, 0xDC].flatMap byteEvents ++
          [Event.on, Event.delay 562, Event.off, Event.delay 557] :=
  ⟨(C2_extended_framing 0x0100 0x23 Hw.reset (by decide) (by decide)).1 (by decide),
   (C2_extended_framing 0x00FF 0x23 Hw.reset (by decide) (by decide)).2 (by decide)⟩

theorem take_drop_bits (l1 l2 l3 l4 : List Bool) (h1 : l1.length = 8) (h2 : l2.length = 8)
    (h3 : l3.length = 8) (h4 : l4.length = 8) :
    (l1 ++ (l2 ++ (l3 ++ l4))).take 8 = l1
      ∧ ((l1 ++ (l2 ++ (l3 ++ l4))).drop 8).take 8 = l2
      ∧ ((l1 ++ (l2 ++ (l3 ++ l4))).drop 16).take 8 = l3
      ∧ ((l1 ++ (l2 ++ (l3 ++ l4))).drop 24).take 8 = l4 := by
  have e16 : 16 = l1.length + 8 := by omega
  have e24 : 24 = l1.length + (l2.length + 8) := by omega
  refine ⟨?_, ?_, ?_, ?_⟩
  · exact List.take_left' h1
  · rw [List.drop_left' h1]
    exact List.take_left' h2
  · rw [e16, ← List.drop_drop, List.drop_left' rfl, List.drop_left' h2]
    exact List.take_left' h3
  · rw [e24, ← List.drop_drop, List.drop_left' rfl, ← List.drop_drop, List.drop_left' rfl,
      List.drop_left' h3, ← h4, List.take_length]

theorem necDecode_telegram (extended : Bool) (b1 b2 b3 b4 : Nat)
    (h1 : b1 < 256) (h2 : b2 < 256) (h3 : b3 < 256) (h4 : b4 < 256) :
    necDecode extended (durations (telegramEvents [b1, b2, b3, b4] [Event.delay 557])) =
      if b4 = inv8 b3 then
        if extended then some (b1 + 256 * b2, b3)
        else if b2 = inv8 b1 then some (b1, b3) else none
      else none := by
  have hlen : ([b1, b2, b3, b4].flatMap bitsLSB).length = 32 := by simp [bitsLSB]
  have hd : (durations (telegramEvents [b1, b2, b3, b4] [Event.delay 557])).drop 2 =
      (([b1, b2, b3, b4].flatMap bitsLSB).flatMap bitIntervals).map Prod.snd ++ [562, 557] := by
    rw [durations, markSpace_telegram]
    simp
  have hbits : [b1, b2, b3, b4].flatMap bitsLSB =
      bitsLSB b1 ++ (bitsLSB b2 ++ (bitsLSB b3 ++ bitsLSB b4)) := by
    simp
  have hdec := decodeBits_bits ([b1, b2, b3, b4].flatMap bitsLSB) [562, 557]
  rw [hlen] at hdec
  obtain ⟨t1, t2, t3, t4⟩ := take_drop_bits (bitsLSB b1) (bitsLSB b2) (bitsLSB b3) (bitsLSB b4)
    (bitsLSB_length b1) (bitsLSB_length b2) (bitsLSB_length b3) (bitsLSB_length b4)
  unfold necDecode
  rw [hd, hdec]
  simp only [hbits, t1, t2, t3, t4, byteOfBits_bitsLSB b1 h1, byteOfBits_bitsLSB b2 h2,
    byteOfBits_bitsLSB b3 h3, byteOfBits_bitsLSB b4 h4]

set_option maxRecDepth 100000 in
/-- The telegram does not tell the framing: the extended address 0xFB04,
whose high byte is the complement of its low byte, is sent exactly like the
standard address 0x04.  A receiver therefore has to be configured for one
framing, as `necDecode` is. -/
theorem extended_telegram_of_standard :
    emittedBy (sendCode 0xFB04 0x23) Hw.reset = emittedBy (sendCode 0x04 0x23) Hw.reset := by
  decide

/-- C3 (round trip): for every address `a` in [0, 0xFFFF] and every command
`c` in [0, 255], the reference NEC decoder of a receiver configured for the
framing in use (extended exactly when `a > 0xFF`), fed with the mark/space
durations of one `sendCode` call, returns exactly `(a, c)`. -/
theorem C3_round_trip (a c : Nat) (s : Hw) (ha : a ≤ 0xFFFF) (hc : c ≤ 255) :
    necDecode (decide (0xFF < a)) (durations (emittedBy (sendCode a c) s)) =
      some (a, c) := by
  have hc1 : c < 256 := by omega
  rw [emittedBy_sendCode]
  by_cases h : 0xFF < a
  · have hlo : a &&& 0xFF < 256 := by
      have := @Nat.and_le_right a 0xFF
      omega
    have hhi : a >>> 8 < 256 := by
      rw [Nat.shiftRight_eq_div_pow]
      omega
    have hsplit : (a &&& 0xFF) + 256 * (a >>> 8) = a := by
      have e : (0xFF : Nat) = 2 ^ 8 - 1 := by decide
      rw [e, Nat.and_pow_two_sub_one_eq_mod, Nat.shiftRight_eq_div_pow]
      omega
    rw [dataBytes_extended a c h ha hc, extendedBytes,
      necDecode_telegram _ _ _ _ _ hlo hhi hc1 (inv8_lt c hc1)]
    simp [h, hsplit]
  · have ha1 : a < 256 := by omega
    rw [dataBytes_standard a c (by omega) hc, standardBytes,
      necDecode_telegram _ _ _ _ _ ha1 (inv8_lt a ha1) hc1 (inv8_lt c hc1)]
    simp [h]

/-- Witness for C3: address 0x04 in standard framing and address 0x0100 in
extended framing, command 0x23. -/
theorem C3_round_trip_witness :
    necDecode false (durations (emittedBy (sendCode 0x04 0x23) Hw.reset)) = some (0x04, 0x23)
      ∧ necDecode true (durations (emittedBy (sendCode 0x0100 0x23) Hw.reset)) =
        some (0x0100, 0x23) :=
  ⟨C3_round_trip 0x04 0x23 Hw.reset (by decide) (by decide),
   C3_round_trip 0x0100 0x23 Hw.reset (by decide) (by decide)⟩

/-- C4 (bit encoding): for every byte `v` in [0, 255], `sendByte(v)` emits
exactly the events of eight data bits and nothing else, the `i`-th being a
562 us burst, a 557 us pause and, when bit `i` of `v` is 1, a further 1120 us
pause; measured as intervals these are 8 mark/space pairs, the `i`-th a
562 us mark followed by a space of 557 us for a 0 and 557 + 1120 = 1677 us
for a 1. -/
theorem C4_bit_encoding (v : Nat) (s : Hw) (hv : v ≤ 255) :
    emittedBy (sendByte (v : Int)) s =
        (List.range 8).flatMap (fun i =>
          [Event.on, Event.delay 562, Event.off, Event.delay 557] ++
            (if v.testBit i then [Event.delay 1120] else []))
      ∧ markSpace (emittedBy (sendByte (v : Int)) s) =
        (List.range 8).flatMap (fun i =>
          [(true, 562), (false, if v.testBit i then 1677 else 557)])
      ∧ (markSpace (emittedBy (sendByte (v : Int)) s)).length = 2 * 8 := by
  have hv1 : v < 256 := by omega
  have hm : markSpace (emittedBy (sendByte (v : Int)) s) =
      (List.range 8).flatMap (fun i =>
        [(true, 562), (false, if v.testBit i then 1677 else 557)]) := by
    rw [emittedBy_sendByte, toUInt8_natCast v hv1, markSpace, byteEvents, intervalsFrom_bits]
    simp [bitsLSB, bitIntervals, List.flatMap_map]
  refine ⟨?_, hm, ?_⟩
  · rw [emittedBy_sendByte, toUInt8_natCast v hv1]
    simp [byteEvents, bitsLSB, bitEvents, List.flatMap_map]
  · rw [hm]
    rfl

/-- Witness for C4 at `v = 0x23` (bits 1, 1, 0, 0, 0, 1, 0, 0 from the least
significant): the measured intervals of `sendByte(0x23)`. -/
theorem C4_bit_encoding_witness :
    markSpace (emittedBy (sendByte 0x23) Hw.reset) =
      [(true, 562), (false, 1677), (true, 562), (false, 1677), (true, 562), (false, 557),
       (true, 562), (false, 557), (true, 562), (false, 557), (true, 562), (false, 1677),
       (true, 562), (false, 557), (true, 562), (false, 557)] :=
  (C4_bit_encoding 0x23 Hw.reset (by decide)).2.1

theorem marks_bitIntervals (bits : List Bool) :
    ((bits.flatMap bitIntervals).filter (fun iv => iv.1)).length = bits.length := by
  induction bits with
  | nil => rfl
  | cons b bs ih =>
    rw [List.flatMap_cons, List.filter_append, List.length_append, ih]
    simp [bitIntervals]
    omega

theorem count_on_bitEvents (bits : List Bool) :
    (bits.flatMap bitEvents).count Event.on = bits.length := by
  induction bits with
  | nil => rfl
  | cons b bs ih =>
    rw [List.flatMap_cons, List.count_append, ih]
    cases b <;> simp [bitEvents] <;> omega

/-- C5 (mark count): for every address and every command, in standard and
in extended framing, the telegram of one `sendCode` call has exactly
2 + 8 * 4 = 34 carrier-on intervals, switched on by 34 `IRon` events. -/
theorem C5_mark_count (a c : Nat) (s : Hw) :
    markCount (emittedBy (sendCode a c) s) = 2 + 8 * 4
      ∧ (emittedBy (sendCode a c) s).count Event.on = 34 := by
  have hm := marks_bitIntervals ((dataBytes a c).flatMap bitsLSB)
  have ho := count_on_bitEvents ((dataBytes a c).flatMap bitsLSB)
  rw [dataBits_length] at hm ho
  constructor
  · rw [emittedBy_sendCode, markCount, markSpace_telegram]
    simp [List.filter_append, hm]
  · rw [emittedBy_sendCode, telegramEvents, flatMap_byteEvents]
    simp [List.count_append, ho, leadInEvents]

theorem dataBits_cons (a c : Nat) :
    ∃ b bs, (dataBytes a c).flatMap bitsLSB = b :: bs := by
  have h := dataBits_length a c
  cases hl : (dataBytes a c).flatMap bitsLSB with
  | nil => rw [hl] at h; simp at h
  | cons b bs => exact ⟨b, bs, rfl⟩

theorem IRoffReg_testBit_one (d : Nat) : (IRoffReg d).testBit 1 = false := by
  unfold IRoffReg
  rw [Nat.testBit_and]
  have h : (0b11111101 : Nat).testBit 1 = false := by decide
  rw [h, Bool.and_false]

set_option maxRecDepth 100000 in
/-- C6, as stated, fails: for address 0x04 and command 0x23 the events of
`sendCode` do not end with the carrier-disable event but with the 557 us
delay of the trailer's `normalPulse`, a final carrier-off interval. -/
theorem C6_counterexample :
    ¬ ((emittedBy (sendCode 0x04 0x23) Hw.reset).getLast? = some Event.off)
      ∧ (emittedBy (sendCode 0x04 0x23) Hw.reset).getLast? = some (Event.delay 557)
      ∧ (markSpace (emittedBy (sendCode 0x04 0x23) Hw.reset)).getLast? =
        some (false, 557) := by
  decide

/-- C6 (amended): for every address and command, the events of `sendCode`
end with the trailer pulse `IRon, 562 us, IRoff` followed by one 557 us delay
with the carrier off; the last mark of the telegram is 562 us long, the
interval after it is a carrier-off interval of 557 us, and bit 1 of `DDRB`
is clear (carrier disabled) when `sendCode` returns. -/
theorem C6_trailer (a c : Nat) (s : Hw) :
    emittedBy (sendCode a c) s =
        (leadInEvents ++ (dataBytes a c).flatMap byteEvents) ++
          [Event.on, Event.delay 562, Event.off, Event.delay 557]
      ∧ markSpace (emittedBy (sendCode a c) s) =
        ((true, 9000) :: (false, 4500) ::
          ((dataBytes a c).flatMap bitsLSB).flatMap bitIntervals) ++
          [(true, 562), (false, 557)]
      ∧ (sendCode a c s).DDRB.testBit 1 = false := by
  refine ⟨?_, ?_, ?_⟩
  · rw [emittedBy_sendCode]
    simp [telegramEvents]
  · rw [emittedBy_sendCode, markSpace_telegram]
    simp
  · rw [sendCode_DDRB]
    exact IRoffReg_testBit_one _

/-- C7 (lead-in): for every address and command, the events of `sendCode`
begin with `IRon`, a 9000 us delay, `IRoff`, a 4500 us delay, and right after
them the `IRon` and 562 us delay of the first data bit; measured as intervals
the telegram begins with a 9000 us mark, a 4500 us space and the 562 us mark
of the first data bit, so the lead-in precedes every data-bit mark. -/
theorem C7_lead_in (a c : Nat) (s : Hw) :
    (emittedBy (sendCode a c) s).take 6 =
        [Event.on, Event.delay 9000, Event.off, Event.delay 4500,
          Event.on, Event.delay 562]
      ∧ (markSpace (emittedBy (sendCode a c) s)).take 3 =
        [(true, 9000), (false, 4500), (true, 562)]
      ∧ emittedBy (sendCode a c) s =
        [Event.on, Event.delay 9000, Event.off, Event.delay 4500] ++
          (((dataBytes a c).flatMap bitsLSB).flatMap bitEvents ++
            [Event.on, Event.delay 562, Event.off, Event.delay 557]) := by
  obtain ⟨b, bs, hb⟩ := dataBits_cons a c
  refine ⟨?_, ?_, ?_⟩
  · rw [emittedBy_sendCode, telegramEvents, flatMap_byteEvents, hb]
    simp [leadInEvents, bitEvents]
  · rw [emittedBy_sendCode, markSpace_telegram, hb]
    simp [bitIntervals]
  · rw [emittedBy_sendCode, telegramEvents, flatMap_byteEvents]
    simp [leadInEvents]

theorem testBit_two (i : Nat) : (0b00000010 : Nat).testBit i = decide (i = 1) := by
  have h : (0b00000010 : Nat) = 2 ^ 1 := by decide
  rw [h, Nat.testBit_two_pow]
  by_cases hi : i = 1
  · subst hi; rfl
  · have : ¬ (1 = i) := fun e => hi e.symm
    simp [hi, this]

theorem testBit_mask (i : Nat) :
    (0b11111101 : Nat).testBit i = (decide (i < 8) && !decide (i = 1)) := by
  have h : (0b11111101 : Nat) = 2 ^ 8 - (2 + 1) := by decide
  rw [h, Nat.testBit_two_pow_sub_succ (by decide), testBit_two]

theorem testBit_of_lt_256 (d i : Nat) (hd : d < 256) (hi : 8 ≤ i) : d.testBit i = false := by
  apply Nat.testBit_lt_two_pow
  calc d < 2 ^ 8 := hd
    _ ≤ 2 ^ i := Nat.pow_le_pow_right (by decide) hi

theorem IRonReg_testBit (d i : Nat) (hi : i ≠ 1) : (IRonReg d).testBit i = d.testBit i := by
  unfold IRonReg
  rw [Nat.testBit_or, testBit_two]
  simp [hi]

theorem IRoffReg_testBit (d i : Nat) (hd : d < 256) (hi : i ≠ 1) :
    (IRoffReg d).testBit i = d.testBit i := by
  unfold IRoffReg
  rw [Nat.testBit_and, testBit_mask]
  by_cases h8 : i < 8
  · simp [hi, h8]
  · rw [testBit_of_lt_256 d i hd (by omega)]
    simp

/-- C8 (carrier gate): for every 8-bit value of `DDRB`, `IRon` sets bit 1 and
`IRoff` clears bit 1, each leaves every other bit unchanged and the value
within 8 bits, and each records only its own event; `IRoff` after `IRon`, and
every complete `sendCode` call, leave bit 1 clear and every other bit of
`DDRB` as it was. -/
theorem C8_carrier_gate (s : Hw) (a c : Nat) (hd : s.DDRB < 256) :
    ((IRon s).DDRB.testBit 1 = true
        ∧ (∀ i, i ≠ 1 → (IRon s).DDRB.testBit i = s.DDRB.testBit i)
        ∧ (IRon s).DDRB < 256 ∧ (IRon s).trace = s.trace ++ [Event.on])
      ∧ ((IRoff s).DDRB.testBit 1 = false
        ∧ (∀ i, i ≠ 1 → (IRoff s).DDRB.testBit i = s.DDRB.testBit i)
        ∧ (IRoff s).DDRB < 256 ∧ (IRoff s).trace = s.trace ++ [Event.off])
      ∧ ((IRoff (IRon s)).DDRB.testBit 1 = false
        ∧ ∀ i, i ≠ 1 → (IRoff (IRon s)).DDRB.testBit i = s.DDRB.testBit i)
      ∧ ((sendCode a c s).DDRB.testBit 1 = false
        ∧ ∀ i, i ≠ 1 → (sendCode a c s).DDRB.testBit i = s.DDRB.testBit i) := by
  refine ⟨⟨?_, ?_, ?_, rfl⟩, ⟨?_, ?_, ?_, rfl⟩, ⟨?_, ?_⟩, ⟨?_, ?_⟩⟩
  · show (IRonReg s.DDRB).testBit 1 = true
    unfold IRonReg
    rw [Nat.testBit_or, testBit_two]
    simp
  · exact fun i hi => IRonReg_testBit s.DDRB i hi
  · show IRonReg s.DDRB < 256
    exact Nat.or_lt_two_pow (n := 8) hd (by decide)
  · exact IRoffReg_testBit_one s.DDRB
  · exact fun i hi => IRoffReg_testBit s.DDRB i hd hi
  · show IRoffReg s.DDRB < 256
    exact Nat.lt_of_le_of_lt Nat.and_le_left hd
  · show (IRoffReg (IRonReg s.DDRB)).testBit 1 = false
    exact IRoffReg_testBit_one _
  · intro i hi
    show (IRoffReg (IRonReg s.DDRB)).testBit i = s.DDRB.testBit i
    rw [IRoffReg_IRonReg]
    exact IRoffReg_testBit s.DDRB i hd hi
  · rw [sendCode_DDRB]
    exact IRoffReg_testBit_one _
  · intro i hi
    rw [sendCode_DDRB]
    exact IRoffReg_testBit s.DDRB i hd hi

/-- Witness for C8: `DDRB = 0b10110101` becomes `0b10110111` by `IRon` and
stays `0b10110101` (bit 1 clear) after a complete `sendCode(0x23)` with
address 0x04. -/
theorem C8_carrier_gate_witness :
    (IRon { DDRB := 0b10110101, trace := [] }).DDRB.testBit 1 = true
      ∧ (sendCode 0x04 0x23 { DDRB := 0b10110101, trace := [] }).DDRB.testBit 1 = false
      ∧ ∀ i, i ≠ 1 →
        (sendCode 0x04 0x23 { DDRB := 0b10110101, trace := [] }).DDRB.testBit i =
          (0b10110101 : Nat).testBit i :=
  have h := C8_carrier_gate { DDRB := 0b10110101, trace := [] } 0x04 0x23 (by decide)
  ⟨h.1.1, h.2.2.2.1, h.2.2.2.2⟩

theorem bitIntervals_within (b : Bool) :
    ∀ iv ∈ bitIntervals b, withinTenPercent iv.2 (necNominal b iv.1) := by
  intro iv hiv
  cases b <;> simp [bitIntervals] at hiv <;> rcases hiv with h | h <;> subst h <;>
    simp only [withinTenPercent, necNominal] <;> norm_num [abs_le]

/-- C9 (timing within receiver tolerance): for every address and command, the
measured intervals of the telegram are the 9000 us mark and 4500 us space of
the lead-in, exactly their nominal lengths, then for each of the 32 data bits
a mark and a space, then the trailer mark; each data-bit interval is within
10% of its NEC nominal length in exact rational arithmetic: the 562 us mark
against 562.5 us, the 557 us space of a 0 against 562.5 us, and the
557 + 1120 = 1677 us space of a 1 against 1687.5 us. -/
theorem C9_timing_tolerance (a c : Nat) (s : Hw) :
    markSpace (emittedBy (sendCode a c) s) =
        (true, 9000) :: (false, 4500) ::
          (((dataBytes a c).flatMap bitsLSB).flatMap bitIntervals ++
            [(true, 562), (false, 557)])
      ∧ ((dataBytes a c).flatMap bitsLSB).length = 32
      ∧ (∀ b ∈ (dataBytes a c).flatMap bitsLSB, ∀ iv ∈ bitIntervals b,
          withinTenPercent iv.2 (necNominal b iv.1))
      ∧ (∀ b, bitIntervals b = [(true, 562), (false, if b then 557 + 1120 else 557)])
      ∧ withinTenPercent 562 562.5 ∧ withinTenPercent 557 562.5
      ∧ withinTenPercent (557 + 1120) 1687.5 := by
  refine ⟨?_, dataBits_length a c, fun b _ => bitIntervals_within b, fun b => rfl, ?_, ?_, ?_⟩
  · rw [emittedBy_sendCode, markSpace_telegram]
  · simp only [withinTenPercent]; norm_num [abs_le]
  · simp only [withinTenPercent]; norm_num [abs_le]
  · simp only [withinTenPercent]; norm_num [abs_le]

/-- C10, as stated, fails: the compare threshold written to `OCR0B` is 7,
while the period count 31 written to `OCR0A`, divided by 4, minus 1 is 6 in
integer arithmetic and 27/4 in exact arithmetic. -/
theorem C10_counterexample :
    timer0Setup.OCR0A = 31 ∧ timer0Setup.OCR0B = 7
      ∧ timer0Setup.OCR0A / 4 - 1 = 6
      ∧ (timer0Setup.OCR0A : ℚ) / 4 - 1 = 27 / 4
      ∧ ¬ (timer0Setup.OCR0B = timer0Setup.OCR0A / 4 - 1)
      ∧ ¬ ((timer0Setup.OCR0B : ℚ) = (timer0Setup.OCR0A : ℚ) / 4 - 1) := by
  refine ⟨rfl, rfl, rfl, ?_, by decide, ?_⟩
  · simp only [timer0Setup, TOP]; norm_num
  · simp only [timer0Setup, TOP, DUTY]; norm_num

/-- C10 (amended): the timer set-up writes `TOP = 31` to `OCR0A` and
`DUTY = 7` to `OCR0B`, and the compare threshold is the number of counts of
one period, `TOP + 1 = 32`, divided by the duty-cycle denominator 4, minus 1,
in integer and in exact arithmetic alike; it is also the integer nearest to
`TOP / 4 - 1`. -/
theorem C10_carrier_configuration :
    timer0Setup.OCR0A = TOP ∧ timer0Setup.OCR0B = DUTY ∧ TOP = 31 ∧ DUTY = 7
      ∧ timer0Setup.OCR0B = (timer0Setup.OCR0A + 1) / 4 - 1
      ∧ (timer0Setup.OCR0B : ℚ) = ((timer0Setup.OCR0A : ℚ) + 1) / 4 - 1
      ∧ |(timer0Setup.OCR0B : ℚ) - ((timer0Setup.OCR0A : ℚ) / 4 - 1)| < 1 / 2 := by
  refine ⟨rfl, rfl, rfl, rfl, rfl, ?_, ?_⟩
  · simp only [timer0Setup, TOP, DUTY]; norm_num
  · simp only [timer0Setup, TOP, DUTY]; norm_num [abs_lt]

/-! ## Auxiliary lemmas: the timer -/

theorem timerCount_setup (n : Nat) : timerCount timer0Setup n = n % 32 := by
  induction n with
  | zero => rfl
  | succ n ih =>
    rw [timerCount, ih, timerNext]
    have h : timer0Setup.OCR0A = 31 := rfl
    rw [h]
    split <;> omega

theorem carrierWave_setup (n : Nat) : carrierWave timer0Setup n = decide (n % 32 ≤ 7) := by
  rw [carrierWave, timerCount_setup, pinHigh]
  rfl

theorem highTicks_setup : highTicks timer0Setup = 8 := by
  decide

theorem carrierHz_setup : carrierHz timer0Setup = 37500 := by
  simp only [carrierHz, periodTicks, F_CPU, timer0Setup, TOP]
  norm_num

theorem dutyCycle_setup : dutyCycle timer0Setup = 1 / 4 := by
  rw [dutyCycle, highTicks_setup]
  simp only [periodTicks, timer0Setup, TOP]
  norm_num

theorem carrier_error_ge (top : Nat) :
    (500 : ℚ) ≤ |(F_CPU : ℚ) / ((top : ℚ) + 1) - 38000| := by
  have hx : (0 : ℚ) < (top : ℚ) + 1 := by positivity
  have hF : (F_CPU : ℚ) = 1200000 := by simp [F_CPU]
  rw [hF]
  by_cases h : top ≤ 30
  · have htop : (top : ℚ) ≤ 30 := by exact_mod_cast h
    have h1 : (38500 : ℚ) ≤ 1200000 / ((top : ℚ) + 1) := by
      rw [le_div_iff₀ hx]
      linarith
    exact le_trans (by linarith) (le_abs_self _)
  · have htop : (31 : ℚ) ≤ (top : ℚ) := by
      have : 31 ≤ top := by omega
      exact_mod_cast this
    have h1 : 1200000 / ((top : ℚ) + 1) ≤ (37500 : ℚ) := by
      rw [div_le_iff₀ hx]
      linarith
    exact le_trans (by linarith) (neg_le_abs _)

/-! ## The realized carrier and the repeat frame -/

/-- C11, as stated, fails: with the 1.2 MHz clock and `TOP = 31` the carrier
has 1200000 / (TOP + 1) = 37500 Hz, not 38000 Hz, in integer and in exact
arithmetic alike. -/
theorem C11_counterexample :
    F_CPU / (TOP + 1) = 37500
      ∧ ¬ (F_CPU / (TOP + 1) = 38000)
      ∧ ¬ ((F_CPU : ℚ) / ((TOP : ℚ) + 1) = 38000)
      ∧ ¬ (carrierHz timer0Setup = 38000) := by
  refine ⟨by decide, by decide, ?_, ?_⟩
  · simp only [F_CPU, TOP]; norm_num
  · rw [carrierHz_setup]; norm_num

/-- C11 (amended): with the 1.2 MHz clock, no prescaler, a counter running
0..`TOP` and the pin high for the counts 0..`DUTY`, the constants `TOP = 31`
and `DUTY = 7` written by `main` give a carrier that repeats every 32 clock
ticks and is high for the first 8 of them: its frequency is
1200000 / (TOP + 1) = 37500 Hz, 500 Hz below the nominal 38 kHz and at least
as close to it as any other value of `TOP` gets, and its duty cycle is
exactly (DUTY + 1) / (TOP + 1) = 1/4. -/
theorem C11_realized_carrier :
    timer0Setup.OCR0A = 31 ∧ timer0Setup.OCR0B = 7
      ∧ (∀ n, timerCount timer0Setup n = n % (TOP + 1))
      ∧ (∀ n, carrierWave timer0Setup n = decide (n % (TOP + 1) ≤ DUTY))
      ∧ periodTicks timer0Setup = TOP + 1 ∧ highTicks timer0Setup = DUTY + 1
      ∧ carrierHz timer0Setup = 37500
      ∧ (F_CPU : ℚ) / ((TOP : ℚ) + 1) = 37500
      ∧ |carrierHz timer0Setup - 38000| = 500
      ∧ (∀ top : Nat, |carrierHz timer0Setup - 38000| ≤
          |(F_CPU : ℚ) / ((top : ℚ) + 1) - 38000|)
      ∧ dutyCycle timer0Setup = 1 / 4
      ∧ ((DUTY : ℚ) + 1) / ((TOP : ℚ) + 1) = 1 / 4 := by
  have herr : |carrierHz timer0Setup - 38000| = 500 := by
    rw [carrierHz_setup]; norm_num [abs_eq]
  refine ⟨rfl, rfl, timerCount_setup, carrierWave_setup, rfl, highTicks_setup,
    carrierHz_setup, ?_, herr, ?_, dutyCycle_setup, ?_⟩
  · simp only [F_CPU, TOP]; norm_num
  · intro top
    rw [herr]
    exact carrier_error_ge top
  · simp only [DUTY, TOP]; norm_num

theorem emittedBy_normalPulse (s : Hw) :
    emittedBy normalPulse s =
      [Event.on, Event.delay 562, Event.off, Event.delay 557] := by
  simp [emittedBy, normalPulse_trace]

theorem emittedBy_repeatPulse (s : Hw) :
    emittedBy repeatPulse s =
      [Event.on, Event.delay 9000, Event.off, Event.delay 2250] := by
  simp [emittedBy, repeatPulse, delay_us, IRoff, IRon]

theorem emittedBy_repeatCode (s : Hw) :
    emittedBy repeatCode s =
      [Event.delay 40000, Event.on, Event.delay 9000, Event.off, Event.delay 2250,
        Event.on, Event.delay 562, Event.off, Event.delay 557, Event.delay 56000] := by
  simp [emittedBy, repeatCode, repeatPulse, normalPulse, delay_ms, delay_us, IRoff, IRon]

/-- C12 (repeat frame): the events of `repeatCode` are a 40 ms delay, the
events of `repeatPulse`, the events of `normalPulse` (the primitive whose
events also open every data bit of `sendByte`), and a 56 ms delay.  Measured
as intervals: 40000 us carrier off, a 9000 us mark, a 2250 us space, a 562 us
mark, and 557 + 56000 us carrier off; there are exactly two marks, no data
bit, and the reference decoder reads no address or command from it. -/
theorem C12_repeat_frame (s : Hw) :
    emittedBy repeatCode s =
        [Event.delay (1000 * 40)] ++ emittedBy repeatPulse s ++ emittedBy normalPulse s ++
          [Event.delay (1000 * 56)]
      ∧ emittedBy repeatPulse s =
        [Event.on, Event.delay 9000, Event.off, Event.delay 2250]
      ∧ emittedBy normalPulse s =
        [Event.on, Event.delay 562, Event.off, Event.delay 557]
      ∧ (∀ b, bitEvents b =
          emittedBy normalPulse s ++ (if b then [Event.delay 1120] else []))
      ∧ intervalsFrom false 0 (emittedBy repeatCode s) =
        [(false, 40000), (true, 9000), (false, 2250), (true, 562), (false, 557 + 56000)]
      ∧ markCount (emittedBy repeatCode s) = 2
      ∧ (emittedBy repeatCode s).count Event.on = 2
      ∧ (∀ extended, necDecode extended (durations (emittedBy repeatCode s)) = none)
      ∧ (repeatCode s).DDRB = IRoffReg s.DDRB := by
  rw [emittedBy_repeatCode, emittedBy_repeatPulse, emittedBy_normalPulse]
  refine ⟨rfl, rfl, rfl, fun b => rfl, by decide, by decide, by decide, ?_, ?_⟩
  · intro extended
    cases extended <;> decide
  · simp [repeatCode, repeatPulse, normalPulse, delay_ms, delay_us, IRoff, IRon,
      IRoffReg_IRonReg, IRoffReg_idem]

/-! ## Auxiliary lemmas: delay sums -/

theorem totalDelay_append (xs ys : List Event) :
    totalDelay (xs ++ ys) = totalDelay xs + totalDelay ys := by
  induction xs with
  | nil => simp [totalDelay]
  | cons e es ih =>
    cases e <;> simp [totalDelay, ih]
    omega

theorem totalDelay_bits (bits : List Bool) :
    totalDelay (bits.flatMap bitEvents) = (562 + 557) * bits.length + 1120 * bits.count true := by
  induction bits with
  | nil => rfl
  | cons b bs ih =>
    rw [List.flatMap_cons, totalDelay_append, ih]
    cases b <;> simp [bitEvents, totalDelay] <;> omega

theorem totalDelay_telegram (bytes : List Nat) :
    totalDelay (telegramEvents bytes [Event.delay 557]) =
      9000 + 4500 + (562 + 557) * (bytes.flatMap bitsLSB).length
        + 1120 * (bytes.flatMap bitsLSB).count true + (562 + 557) := by
  have h1 : totalDelay leadInEvents = 9000 + 4500 := rfl
  have h2 : totalDelay [Event.on, Event.delay 562, Event.off] = 562 := rfl
  have h3 : totalDelay [Event.delay 557] = 557 := rfl
  rw [telegramEvents, flatMap_byteEvents]
  simp only [totalDelay_append, totalDelay_bits, h1, h2, h3]
  omega

theorem count_true_bytes (b1 b2 b3 b4 : Nat) :
    ([b1, b2, b3, b4].flatMap bitsLSB).count true =
      popcount8 b1 + popcount8 b2 + popcount8 b3 + popcount8 b4 := by
  simp [popcount8, List.count_append]
  omega

set_option maxRecDepth 100000 in
theorem popcount8_inv8 (v : Nat) (h : v < 256) : popcount8 v + popcount8 (inv8 v) = 8 := by
  revert v
  decide

theorem count_false_add (bits : List Bool) : bits.count false + bits.count true = bits.length := by
  induction bits with
  | nil => rfl
  | cons b bs ih => cases b <;> simp [List.count_cons] <;> omega

theorem count_long_gaps (bits : List Bool) :
    (bits.flatMap bitIntervals).count (false, 557 + 1120) = bits.count true
      ∧ (bits.flatMap bitIntervals).count (false, 557) = bits.count false := by
  induction bits with
  | nil => exact ⟨rfl, rfl⟩
  | cons b bs ih =>
    rw [List.flatMap_cons, List.count_append, List.count_append, ih.1, ih.2]
    cases b <;> simp [bitIntervals, List.count_cons] <;> omega

/-- C13 (command-independent duration): for an address `a` in [0, 0xFFFF] and
a command `c` in [0, 255].  Standard framing (`a ≤ 0xFF`): of the 32 data
bits exactly 16 are 1 and 16 are 0, so the telegram has 16 long and 16 short
data-bit gaps (measured: 16 spaces of 1677 us, and 16 + 1 spaces of 557 us,
the last being the pause after the trailer), and the sum of all delays of
one `sendCode` call is 9000 + 4500 + 33 * (562 + 557) + 16 * 1120 = 68347 us
whatever `a` and `c` are.  Extended framing (`a > 0xFF`): the sum is
9000 + 4500 + 33 * 1119 + 1120 * (popcount(a & 0xFF) + popcount(a >> 8) + 8),
which does not depend on `c`. -/
theorem C13_delay_sum (a c : Nat) (s : Hw) (ha : a ≤ 0xFFFF) (hc : c ≤ 255) :
    (a ≤ 0xFF →
        ((dataBytes a c).flatMap bitsLSB).count true = 16
        ∧ ((dataBytes a c).flatMap bitsLSB).count false = 16
        ∧ (markSpace (emittedBy (sendCode a c) s)).count (false, 1677) = 16
        ∧ (markSpace (emittedBy (sendCode a c) s)).count (false, 557) = 16 + 1
        ∧ totalDelay (emittedBy (sendCode a c) s) =
          9000 + 4500 + 33 * (562 + 557) + 16 * 1120
        ∧ totalDelay (emittedBy (sendCode a c) s) = 68347)
      ∧ (0xFF < a →
        totalDelay (emittedBy (sendCode a c) s) =
          9000 + 4500 + 33 * 1119 +
            1120 * (popcount8 (a &&& 0xFF) + popcount8 (a >>> 8) + 8)) := by
  have hc1 : c < 256 := by omega
  have hlen := dataBits_length a c
  have htot := totalDelay_telegram (dataBytes a c)
  rw [hlen] at htot
  have hpc := popcount8_inv8 c hc1
  constructor
  · intro h
    have ha1 : a < 256 := by omega
    have hpa := popcount8_inv8 a ha1
    have hb := dataBytes_standard a c h hc
    have htrue : ((dataBytes a c).flatMap bitsLSB).count true = 16 := by
      rw [hb, standardBytes, count_true_bytes]
      omega
    have hfalse : ((dataBytes a c).flatMap bitsLSB).count false = 16 := by
      have := count_false_add ((dataBytes a c).flatMap bitsLSB)
      omega
    have hgaps := count_long_gaps ((dataBytes a c).flatMap bitsLSB)
    rw [htrue, hfalse] at hgaps
    rw [htrue] at htot
    refine ⟨htrue, hfalse, ?_, ?_, ?_, ?_⟩
    · rw [emittedBy_sendCode, markSpace_telegram]
      simp [List.count_cons, List.count_append, hgaps.1]
    · rw [emittedBy_sendCode, markSpace_telegram]
      simp [List.count_cons, List.count_append, hgaps.2]
    · rw [emittedBy_sendCode, htot]
    · rw [emittedBy_sendCode, htot]
  · intro h
    have hb := dataBytes_extended a c h ha hc
    have htrue : ((dataBytes a c).flatMap bitsLSB).count true =
        popcount8 (a &&& 0xFF) + popcount8 (a >>> 8) + 8 := by
      rw [hb, extendedBytes, count_true_bytes]
      omega
    rw [htrue] at htot
    rw [emittedBy_sendCode, htot]
    omega

/-- Witness for C13: address 0x04 and address 0xFF in standard framing give
68347 us for different commands, and the extended address 0x1234 (five 1 bits)
gives 9000 + 4500 + 33 * 1119 + 1120 * 13 = 64987 us. -/
theorem C13_delay_sum_witness :
    totalDelay (emittedBy (sendCode 0x04 0x23) Hw.reset) = 68347
      ∧ totalDelay (emittedBy (sendCode 0xFF 0x00) Hw.reset) = 68347
      ∧ totalDelay (emittedBy (sendCode 0x1234 0x23) Hw.reset) = 64987 :=
  ⟨((C13_delay_sum 0x04 0x23 Hw.reset (by decide) (by decide)).1 (by decide)).2.2.2.2.2,
   ((C13_delay_sum 0xFF 0x00 Hw.reset (by decide) (by decide)).1 (by decide)).2.2.2.2.2,
   (C13_delay_sum 0x1234 0x23 Hw.reset (by decide) (by decide)).2 (by decide)⟩

/-! ## Auxiliary lemmas: carrier gating -/

theorem filter_isGate_bits (bits : List Bool) :
    (bits.flatMap bitEvents).filter isGate =
      (List.replicate bits.length [Event.on, Event.off]).flatten := by
  induction bits with
  | nil => rfl
  | cons b bs ih =>
    rw [List.flatMap_cons, List.filter_append, ih, List.length_cons, List.replicate_succ,
      List.flatten_cons]
    cases b <;> simp [bitEvents, isGate]

theorem delaysWhile_bitEvents (want carrier b : Bool) (rest : List Event) :
    delaysWhile want carrier (bitEvents b ++ rest) =
      (if want then [562] else if b then [557, 1120] else [557]) ++
        delaysWhile want false rest := by
  cases want <;> cases b <;> simp [bitEvents, delaysWhile]

theorem delaysWhile_bits (want : Bool) (bits : List Bool) (rest : List Event) :
    delaysWhile want false (bits.flatMap bitEvents ++ rest) =
      bits.flatMap (fun b => if want then [562] else if b then [557, 1120] else [557]) ++
        delaysWhile want false rest := by
  induction bits with
  | nil => rfl
  | cons b bs ih =>
    rw [List.flatMap_cons, List.append_assoc, delaysWhile_bitEvents, ih, List.flatMap_cons,
      List.append_assoc]

theorem carrierAfter_bits (bits : List Bool) (rest : List Event) :
    carrierAfter false (bits.flatMap bitEvents ++ rest) = carrierAfter false rest := by
  induction bits with
  | nil => rfl
  | cons b bs ih =>
    rw [List.flatMap_cons, List.append_assoc]
    cases b <;> simpa [bitEvents, carrierAfter] using ih

theorem flatMap_const_562 (bits : List Bool) :
    bits.flatMap (fun _ => [562]) = List.replicate bits.length 562 := by
  induction bits with
  | nil => rfl
  | cons b bs ih => rw [List.flatMap_cons, ih, List.length_cons, List.replicate_succ]; rfl

theorem telegramEvents_eq (bytes : List Nat) :
    telegramEvents bytes [Event.delay 557] =
      Event.on :: Event.delay 9000 :: Event.off :: Event.delay 4500 ::
        ((bytes.flatMap bitsLSB).flatMap bitEvents ++
          [Event.on, Event.delay 562, Event.off, Event.delay 557]) := by
  simp [telegramEvents, leadInEvents, flatMap_byteEvents]

/-- C14 (carrier gating invariant): for every address and command, in the
events of one `sendCode` call the carrier switches are 34 times `IRon` then
`IRoff`, strictly alternating, `IRon` first and `IRoff` last; the delays
executed with the carrier on are 9000 us, once and first, and then 562 us
33 times; every delay executed with the carrier off is 4500, 557 or 1120 us,
and no delay of 4500, 557 or 1120 us is executed with the carrier on; the
carrier is off, and bit 1 of `DDRB` clear, when `sendCode` returns.  None of
this depends on the carrier state `c0` before the call. -/
theorem C14_carrier_gating (a c : Nat) (s : Hw) (c0 : Bool) :
    (emittedBy (sendCode a c) s).filter isGate =
        (List.replicate 34 [Event.on, Event.off]).flatten
      ∧ delaysWhile true c0 (emittedBy (sendCode a c) s) = 9000 :: List.replicate 33 562
      ∧ (∀ d ∈ delaysWhile false c0 (emittedBy (sendCode a c) s),
          d = 4500 ∨ d = 557 ∨ d = 1120)
      ∧ (∀ d ∈ delaysWhile true c0 (emittedBy (sendCode a c) s),
          d ≠ 4500 ∧ d ≠ 557 ∧ d ≠ 1120)
      ∧ carrierAfter c0 (emittedBy (sendCode a c) s) = false
      ∧ (sendCode a c s).DDRB.testBit 1 = false := by
  have hlen := dataBits_length a c
  have hon : delaysWhile true c0 (emittedBy (sendCode a c) s) =
      9000 :: List.replicate 33 562 := by
    rw [emittedBy_sendCode, telegramEvents_eq]
    simp only [delaysWhile, if_true, Bool.false_eq_true, if_false]
    rw [delaysWhile_bits]
    simp only [if_true, flatMap_const_562, hlen]
    simp [delaysWhile, List.replicate_succ']
  refine ⟨?_, hon, ?_, ?_, ?_, ?_⟩
  · rw [emittedBy_sendCode, telegramEvents_eq]
    simp only [List.filter_cons, List.filter_append, isGate, filter_isGate_bits, hlen]
    simp [List.replicate_succ']
  · rw [emittedBy_sendCode, telegramEvents_eq]
    simp only [delaysWhile, Bool.true_eq_false, if_true, if_false]
    rw [delaysWhile_bits]
    intro d hd
    simp only [Bool.false_eq_true, if_false, List.mem_cons, List.mem_append,
      List.mem_flatMap, delaysWhile, if_true] at hd
    rcases hd with h | ⟨b, _, hb⟩ | h
    · exact Or.inl h
    · cases b <;> simp at hb <;> omega
    · simp at h
      omega
  · rw [hon]
    intro d hd
    simp only [List.mem_cons, List.mem_replicate] at hd
    omega
  · rw [emittedBy_sendCode, telegramEvents_eq]
    simp only [carrierAfter]
    rw [carrierAfter_bits]
    rfl
  · rw [sendCode_DDRB]
    exact IRoffReg_testBit_one _

end TinyIR
